import Mathlib

/-!
Verification of the domain-stake epoch extraction scripts.

The development shallowly embeds the core of the repository's extraction
script (`findEpochStartBlock`, `readSummaryAt`, `mapToObj`, and the `main`
extraction loop) as executable Lean definitions, and proves the claims of
the specification about them.

The remote ledger (RPC client) is modelled as a `Chain`: a head height, a
block-hash assignment, and a per-height optional staking summary for the
configured domain.  All reads in the script are pure functions of this
structure, since the script only issues reads at fixed block hashes.
-/

/-- A raw value appearing inside a codec map (`currentOperators`,
`currentEpochRewards`).  In the script such a value is either a big-number
object (whose `toString()` prints its decimal representation), a JSON hex
string starting with `0x` (converted with `BigInt(v).toString()`), or some
other string (kept as is by `String(v)`). -/
inductive RawVal where
  | big (n : Nat)
  | hexStr (s : String)
  | other (s : String)
deriving Repr, DecidableEq

/-- Raw staking summary as stored on chain for the configured domain
(`domains.domainStakingSummary(DOMAIN_ID)` unwrapped). -/
structure StakingSummary where
  currentEpochIndex : Nat
  currentTotalStake : Option Nat
  currentOperators : List (Nat × RawVal)
  currentEpochRewards : List (Nat × RawVal)
deriving Repr, DecidableEq

/-- The external ledger as seen by the script: latest height, block hashes
(opaque content handles, one per height), and the staking summary visible
at each height (`none` when the storage item is absent at that height). -/
structure Chain where
  headHeight : Nat
  blockHash : Nat → Nat
  stakingSummaryAt : Nat → Option StakingSummary

/- ---------------------------------------------------------------------
Decimal / hexadecimal string machinery.

`BigInt.prototype.toString()` prints the exact decimal representation of an
arbitrary-precision integer, and `BigInt("0x…")` parses an exact
hexadecimal representation.  Both are embedded below as executable
digit-list printers and parsers.  The printers use the number itself as
recursion fuel (the digit count of `n` is at most `n`), which makes them
structurally recursive and hence evaluable by the kernel.
--------------------------------------------------------------------- -/

/-- The ASCII digit character for `d < 10` (`'0'` has code 48). -/
def digitChar (d : Nat) : Char := Char.ofNat (48 + d)

/-- The ASCII hex digit character for `d < 16` (lowercase letters,
`'a'` has code 97). -/
def hexDigitChar (d : Nat) : Char :=
  if d < 10 then Char.ofNat (48 + d) else Char.ofNat (87 + d)

/-- Core decimal printer: prepends the decimal digits of `n` to `acc`.
`f` is recursion fuel; `f = n` always suffices since `n / 10 < n`. -/
def toDecCore : Nat → Nat → List Char → List Char
  | 0, n, acc => digitChar (n % 10) :: acc
  | f + 1, n, acc =>
    if n < 10 then digitChar (n % 10) :: acc
    else toDecCore f (n / 10) (digitChar (n % 10) :: acc)

/-- Decimal representation of an arbitrary-precision unsigned integer:
the embedding of `BigInt.prototype.toString()` / polkadot-codec
`toString()` used by the script for every stake and reward value. -/
def natToDecStr (n : Nat) : String := String.mk (toDecCore n n [])

/-- Core hexadecimal printer, analogous to `toDecCore`. -/
def toHexCore : Nat → Nat → List Char → List Char
  | 0, n, acc => hexDigitChar (n % 16) :: acc
  | f + 1, n, acc =>
    if n < 16 then hexDigitChar (n % 16) :: acc
    else toHexCore f (n / 16) (hexDigitChar (n % 16) :: acc)

/-- Canonical `0x`-prefixed hexadecimal encoding of `n`: the form of the
hex-encoded inputs that the script's `mapToObj` converts to decimal. -/
def natToHexStr (n : Nat) : String := String.mk ('0' :: 'x' :: toHexCore n n [])

/-- Value of an ASCII decimal digit character, `none` otherwise. -/
def charToDigit (c : Char) : Option Nat :=
  if 48 ≤ c.toNat ∧ c.toNat ≤ 57 then some (c.toNat - 48) else none

/-- Value of an ASCII hexadecimal digit character (either case),
`none` otherwise. -/
def hexCharToDigit (c : Char) : Option Nat :=
  if 48 ≤ c.toNat ∧ c.toNat ≤ 57 then some (c.toNat - 48)
  else if 97 ≤ c.toNat ∧ c.toNat ≤ 102 then some (c.toNat - 87)
  else if 65 ≤ c.toNat ∧ c.toNat ≤ 70 then some (c.toNat - 55)
  else none

/-- Left-to-right accumulator loop of an exact decimal parser. -/
def parseDecGo : Nat → List Char → Option Nat
  | a, [] => some a
  | a, c :: cs =>
    match charToDigit c with
    | some d => parseDecGo (10 * a + d) cs
    | none => none

/-- Exact arbitrary-precision decimal parser: re-parsing a serialized
stake or reward field as an arbitrary-precision integer. -/
def decStrToNat (s : String) : Option Nat :=
  if s.data.isEmpty then none else parseDecGo 0 s.data

/-- Left-to-right accumulator loop of an exact hexadecimal parser. -/
def parseHexGo : Nat → List Char → Option Nat
  | a, [] => some a
  | a, c :: cs =>
    match hexCharToDigit c with
    | some d => parseHexGo (16 * a + d) cs
    | none => none

/-- The embedding of `BigInt` applied to a `0x`-prefixed string, as used in
`mapToObj`'s hex branch (the branch guard `v.startsWith('0x')` ensures only
this form reaches the conversion).  Exact: no floating point anywhere. -/
def hexStrToNat (s : String) : Option Nat :=
  match s.data with
  | '0' :: 'x' :: cs => if cs.isEmpty then none else parseHexGo 0 cs
  | _ => none

/-- Conversion of one map value in `mapToObj` (lines 33-41 of the script):
big-number objects print their decimal representation, `0x` strings go
through `BigInt` and then decimal printing, everything else is kept as a
string.  A failing `BigInt` conversion throws in the script, which the
surrounding `try`/`catch` turns into returning the partial object. -/
def convRawVal : RawVal → Option String
  | .big n => some (natToDecStr n)
  | .hexStr s => (hexStrToNat s).map natToDecStr
  | .other s => some s

/-- Embedding of `mapToObj`: converts each entry to its decimal-string
form; an entry whose conversion throws aborts the loop, keeping the
entries accumulated before it (the script's empty `catch` falls through to
`return out`). -/
def mapToObj : List (Nat × RawVal) → List (Nat × String)
  | [] => []
  | (k, v) :: rest =>
    match convRawVal v with
    | some s => (k, s) :: mapToObj rest
    | none => []

/- ---------------------------------------------------------------------
State reader and epoch oracle.
--------------------------------------------------------------------- -/

/-- Normalized read of ledger state at one height: the return value of the
script's `readSummaryAt` (its `SnapshotView`). -/
structure SnapshotView where
  blockNumber : Nat
  hash : Nat
  epoch : Nat
  totalStake : Option String
  operatorStakes : List (Nat × String)
  rewards : List (Nat × String)
deriving Repr, DecidableEq

/-- Embedding of `readSummaryAt` (lines 49-64): resolve the height to a
hash, read the staking summary through it, and normalize; `none` when the
storage item is absent (`opt.isNone`). -/
def readSummaryAt (c : Chain) (blockNumber : Nat) : Option SnapshotView :=
  (c.stakingSummaryAt blockNumber).map fun s =>
    { blockNumber := blockNumber
      hash := c.blockHash blockNumber
      epoch := s.currentEpochIndex
      totalStake := s.currentTotalStake.map natToDecStr
      operatorStakes := mapToObj s.currentOperators
      rewards := mapToObj s.currentEpochRewards }

/-- Embedding of `epochAt` (lines 66-69): the epoch index visible at a
height, `none` when no summary exists there. -/
def epochAt (c : Chain) (blockNumber : Nat) : Option Nat :=
  (readSummaryAt c blockNumber).map (·.epoch)

/-- The monotonicity assumption on the epoch oracle: the epoch index is
non-decreasing in height, with Absent treated as below every present
reading (absent heights precede all present ones). -/
def Mono (c : Chain) : Prop :=
  ∀ h₁ h₂, h₁ ≤ h₂ → ∀ e₁, epochAt c h₁ = some e₁ →
    ∃ e₂, epochAt c h₂ = some e₂ ∧ e₁ ≤ e₂

/- ---------------------------------------------------------------------
Epoch Boundary Locator.
--------------------------------------------------------------------- -/

/-- The error classes of the locator, in the spec's taxonomy.  In the
script they are the three `throw new Error(...)` sites of
`findEpochStartBlock` (lines 75, 76 and 84). -/
inductive LocErr where
  | epochIndexUnavailable
  | epochNotYetReached
  | boundarySearchInconsistent
deriving Repr, DecidableEq

/-- The `while (lo < hi)` loop of `findEpochStartBlock` (lines 77-82),
with explicit fuel `f`.  Each iteration with `lo < hi` probes
`mid = (lo + hi) / 2` and either sets `hi := mid` or `lo := mid + 1`, so
the interval length `hi - lo` strictly shrinks; fuel `hi - lo` therefore
always suffices (proved below), making the fuel parameter semantically
irrelevant.  (The script's local `ans` is assigned but never read after
the loop — the function returns `lo` — so it is omitted.) -/
def bsLoopAux (c : Chain) (t : Nat) : Nat → Nat → Nat → Nat
  | 0, lo, _ => lo
  | f + 1, lo, hi =>
    if lo < hi then
      let mid := (lo + hi) / 2
      match epochAt c mid with
      | none => bsLoopAux c t f (mid + 1) hi
      | some e => if t ≤ e then bsLoopAux c t f lo mid else bsLoopAux c t f (mid + 1) hi
    else lo

/-- The binary-search loop itself: run with the exactly sufficient fuel
`hi - lo`.  `bsLoop_eq` below proves that this definition satisfies the
while-loop's defining equation. -/
def bsLoop (c : Chain) (t : Nat) (lo hi : Nat) : Nat :=
  bsLoopAux c t (hi - lo) lo hi

/-- Embedding of `findEpochStartBlock` (lines 71-86): guard reads at the
head, binary search over `[1, headHeight]`, and mandatory post-search
verification. -/
def findEpochStartBlock (c : Chain) (targetEpoch : Nat) : Except LocErr Nat :=
  let hi := c.headHeight
  match epochAt c hi with
  | none => .error .epochIndexUnavailable
  | some cur =>
    if cur < targetEpoch then .error .epochNotYetReached
    else
      let lo := bsLoop c targetEpoch 1 hi
      if epochAt c lo = some targetEpoch then .ok lo
      else .error .boundarySearchInconsistent

/- ---------------------------------------------------------------------
Extraction pipeline (the script's `main`, lines 88-167).
--------------------------------------------------------------------- -/

/-- The unit of persisted output (one element of the JSON array written to
the store), as pushed by `main` (lines 139-149). -/
structure EpochRecord where
  domainId : Nat
  epoch : Nat
  startBlock : Nat
  startHash : Option Nat
  endBlock : Nat
  endHash : Option Nat
  totalStake : Option String
  operatorStakes : Option (List (Nat × String))
  rewards : Option (List (Nat × String))
deriving Repr, DecidableEq

/-- The record assembled for epoch `ep` with confirmed heights
(lines 136-149): start-height snapshot supplies stake composition,
end-height snapshot supplies rewards; either snapshot may be absent, in
which case the fields sourced from it are `none` (JS `undefined`/`null`
through optional chaining). -/
def assembleRecord (did : Nat) (c : Chain) (ep startBlock endBlock : Nat) : EpochRecord :=
  let startSnap := readSummaryAt c startBlock
  let endSnap := readSummaryAt c endBlock
  { domainId := did
    epoch := ep
    startBlock := startBlock
    startHash := startSnap.map (·.hash)
    endBlock := endBlock
    endHash := endSnap.map (·.hash)
    totalStake := startSnap.bind (·.totalStake)
    operatorStakes := startSnap.map (·.operatorStakes)
    rewards := endSnap.map (·.rewards) }

/-- The mutable state of `main`'s loop: the accumulated `rows`, the length
watermark `lastWrittenLength`, and the current content of the output
store file. -/
structure PipelineState where
  rows : List EpochRecord
  lastWrittenLength : Nat
  store : List EpochRecord
deriving Repr, DecidableEq

/-- One iteration of the `for (let ep = startEpoch; ...)` loop
(lines 110-156).  The first `findEpochStartBlock` call (line 112) is not
wrapped in any `try`, so its failure propagates (`.error`); the second
call sits in a `try`/bare-`catch` (lines 115-123), any failure of which
marks the epoch unconfirmed: the row is skipped, the accumulated rows are
flushed if unwritten, and the loop continues.  A confirmed epoch appends
its record and immediately writes the whole sequence. -/
def runStep (did : Nat) (c : Chain) (ep : Nat) (st : PipelineState) :
    Except LocErr PipelineState :=
  match findEpochStartBlock c ep with
  | .error e => .error e
  | .ok startBlock =>
    match findEpochStartBlock c (ep + 1) with
    | .ok nextStart =>
      let rows := st.rows ++ [assembleRecord did c ep startBlock (nextStart - 1)]
      .ok { rows := rows, lastWrittenLength := rows.length, store := rows }
    | .error _ =>
      if st.lastWrittenLength < st.rows.length
      then .ok { rows := st.rows, lastWrittenLength := st.rows.length, store := st.rows }
      else .ok st

/-- The loop over the requested epoch range, iterated by remaining count
`n` starting at epoch `ep`.  An uncaught error aborts the run (the
script's `main().catch(... process.exit(1))`), leaving the state as it
was at the start of the failing iteration. -/
def runEpochs (did : Nat) (c : Chain) : Nat → Nat → PipelineState →
    PipelineState × Option LocErr
  | 0, _, st => (st, none)
  | n + 1, ep, st =>
    match runStep did c ep st with
    | .error e => (st, some e)
    | .ok st' => runEpochs did c n (ep + 1) st'

/-- Embedding of `main` (lines 88-165) after CLI/range resolution: check
the head epoch is readable, run the loop over `startEpoch..endEpoch`
(that is `endEpoch + 1 - startEpoch` iterations), and on normal loop exit
perform the defensive final flush (lines 158-162).  `existing` is the
loaded prior store content (append mode), `store0` the initial content of
the output file.  The returned `Option LocErr` is `none` for a normal
termination and carries the uncaught error otherwise. -/
def mainRun (did : Nat) (c : Chain) (startEpoch endEpoch : Nat)
    (existing store0 : List EpochRecord) : PipelineState × Option LocErr :=
  let st0 : PipelineState :=
    { rows := existing, lastWrittenLength := existing.length, store := store0 }
  match epochAt c c.headHeight with
  | none => (st0, some .epochIndexUnavailable)
  | some _ =>
    let res := runEpochs did c (endEpoch + 1 - startEpoch) startEpoch st0
    match res.2 with
    | some e => (res.1, some e)
    | none =>
      let st := res.1
      if st.lastWrittenLength < st.rows.length
      then ({ rows := st.rows, lastWrittenLength := st.rows.length, store := st.rows }, none)
      else (st, none)

/- ---------------------------------------------------------------------
Verification auxiliaries: abstract numeric mirrors of the digit printers
(used to state their parsing behaviour), and small concrete chains used
as witnesses and counterexamples.
--------------------------------------------------------------------- -/

/-- Numeric mirror of `toDecCore`: the value a left-to-right decimal
parser holds after consuming the digits of `n`, having held `a` before. -/
def pushDec : Nat → Nat → Nat → Nat
  | 0, a, n => 10 * a + n % 10
  | f + 1, a, n =>
    if n < 10 then 10 * a + n % 10 else 10 * pushDec f a (n / 10) + n % 10

/-- Numeric mirror of `toHexCore`, base 16. -/
def pushHex : Nat → Nat → Nat → Nat
  | 0, a, n => 16 * a + n % 16
  | f + 1, a, n =>
    if n < 16 then 16 * a + n % 16 else 16 * pushHex f a (n / 16) + n % 16

/-- A concrete staking summary with epoch index `e`, a total stake,
one big-number operator stake and one hex-encoded operator stake. -/
def sumE (e : Nat) : StakingSummary :=
  { currentEpochIndex := e
    currentTotalStake := some (7 + e)
    currentOperators := [(0, .big 100), (1, .hexStr (natToHexStr 200))]
    currentEpochRewards := [(0, .big 5)] }

/-- Concrete chain: epoch 0 occupies heights 1-2, epoch 1 starts at
height 3 and is still open at the head (height 4). -/
def chainOneOpen : Chain :=
  { headHeight := 4
    blockHash := id
    stakingSummaryAt := fun h =>
      if h = 0 then none else if h ≤ 2 then some (sumE 0) else some (sumE 1) }

/-- Concrete monotone chain whose epoch index skips from 0 to 3: heights
1-2 read epoch 0, heights from 3 read epoch 3 (head 3).  Epoch 1 is never
observed at any height. -/
def chainSkipA : Chain :=
  { headHeight := 3
    blockHash := id
    stakingSummaryAt := fun h =>
      if h = 0 then none else if h ≤ 2 then some (sumE 0) else some (sumE 3) }

/-- Concrete monotone chain whose epoch index skips from 0 to 2: height 1
reads epoch 0, heights from 2 read epoch 2 (head 2). -/
def chainSkipB : Chain :=
  { headHeight := 2
    blockHash := id
    stakingSummaryAt := fun h =>
      if h = 0 then none else if h = 1 then some (sumE 0) else some (sumE 2) }

/-- Concrete chain with two completed epochs: epoch 0 at height 1,
epoch 1 at height 2, epoch 2 from height 3 (head 3). -/
def chainTwoDone : Chain :=
  { headHeight := 3
    blockHash := id
    stakingSummaryAt := fun h =>
      if h = 0 then none else if h = 1 then some (sumE 0)
      else if h = 2 then some (sumE 1) else some (sumE 2) }

/-- Concrete chain where the summary is absent at height 3, in the middle
of otherwise present readings: epoch 0 at heights 1-2, absent at 3,
epoch 1 at height 4 (head 4).  The end height of epoch 0 is 3, so its
end-of-epoch snapshot read returns Absent. -/
def chainAbsEnd : Chain :=
  { headHeight := 4
    blockHash := id
    stakingSummaryAt := fun h =>
      if h = 0 then none else if h ≤ 2 then some (sumE 0)
      else if h = 3 then none else some (sumE 1) }

/-- Concrete chain exposing no staking summary at any height (the domain
was never activated): reading the head fails. -/
def chainNoSummary : Chain :=
  { headHeight := 2
    blockHash := id
    stakingSummaryAt := fun _ => none }

/- ---------------------------------------------------------------------
Lemmas: exact round-tripping of the decimal and hexadecimal encodings.
--------------------------------------------------------------------- -/

theorem charToDigit_digitChar {d : Nat} (hd : d < 10) :
    charToDigit (digitChar d) = some d := by
  interval_cases d <;> decide

theorem hexCharToDigit_hexDigitChar {d : Nat} (hd : d < 16) :
    hexCharToDigit (hexDigitChar d) = some d := by
  interval_cases d <;> decide

theorem parseDecGo_toDecCore (f : Nat) :
    ∀ n a cs, parseDecGo a (toDecCore f n cs) = parseDecGo (pushDec f a n) cs := by
  induction f with
  | zero =>
    intro n a cs
    simp [toDecCore, parseDecGo, pushDec, charToDigit_digitChar (Nat.mod_lt n (by omega))]
  | succ f ih =>
    intro n a cs
    by_cases h : n < 10
    · simp [toDecCore, parseDecGo, pushDec, h,
        charToDigit_digitChar (Nat.mod_lt n (by omega))]
    · simp only [toDecCore, pushDec, if_neg h]
      rw [ih]
      simp [parseDecGo, charToDigit_digitChar (Nat.mod_lt n (by omega))]

theorem pushDec_self (f : Nat) : ∀ n, n ≤ f → pushDec f 0 n = n := by
  induction f with
  | zero => intro n hn; interval_cases n; rfl
  | succ f ih =>
    intro n hn
    by_cases h : n < 10
    · simp [pushDec, h, Nat.mod_eq_of_lt h]
    · have hd : n / 10 ≤ f := by omega
      simp only [pushDec, if_neg h, ih _ hd]
      omega

theorem toDecCore_ne_nil (f : Nat) : ∀ n cs, toDecCore f n cs ≠ [] := by
  induction f with
  | zero => intro n cs; simp [toDecCore]
  | succ f ih =>
    intro n cs
    by_cases h : n < 10
    · simp [toDecCore, h]
    · simp only [toDecCore, if_neg h]
      exact ih _ _

theorem decStrToNat_natToDecStr (n : Nat) :
    decStrToNat (natToDecStr n) = some n := by
  have hne := toDecCore_ne_nil n n []
  have hparse := parseDecGo_toDecCore n n 0 []
  rw [pushDec_self n n le_rfl] at hparse
  simp only [decStrToNat, natToDecStr]
  cases h : toDecCore n n [] with
  | nil => exact absurd h hne
  | cons c cs =>
    rw [h] at hparse
    simpa [parseDecGo] using hparse

theorem parseHexGo_toHexCore (f : Nat) :
    ∀ n a cs, parseHexGo a (toHexCore f n cs) = parseHexGo (pushHex f a n) cs := by
  induction f with
  | zero =>
    intro n a cs
    simp [toHexCore, parseHexGo, pushHex, hexCharToDigit_hexDigitChar (Nat.mod_lt n (by omega))]
  | succ f ih =>
    intro n a cs
    by_cases h : n < 16
    · simp [toHexCore, parseHexGo, pushHex, h,
        hexCharToDigit_hexDigitChar (Nat.mod_lt n (by omega))]
    · simp only [toHexCore, pushHex, if_neg h]
      rw [ih]
      simp [parseHexGo, hexCharToDigit_hexDigitChar (Nat.mod_lt n (by omega))]

theorem pushHex_self (f : Nat) : ∀ n, n ≤ f → pushHex f 0 n = n := by
  induction f with
  | zero => intro n hn; interval_cases n; rfl
  | succ f ih =>
    intro n hn
    by_cases h : n < 16
    · simp [pushHex, h, Nat.mod_eq_of_lt h]
    · have hd : n / 16 ≤ f := by omega
      simp only [pushHex, if_neg h, ih _ hd]
      omega

theorem toHexCore_ne_nil (f : Nat) : ∀ n cs, toHexCore f n cs ≠ [] := by
  induction f with
  | zero => intro n cs; simp [toHexCore]
  | succ f ih =>
    intro n cs
    by_cases h : n < 16
    · simp [toHexCore, h]
    · simp only [toHexCore, if_neg h]
      exact ih _ _

theorem hexStrToNat_natToHexStr (n : Nat) :
    hexStrToNat (natToHexStr n) = some n := by
  have hne := toHexCore_ne_nil n n []
  have hparse := parseHexGo_toHexCore n n 0 []
  rw [pushHex_self n n le_rfl] at hparse
  simp only [hexStrToNat, natToHexStr]
  cases h : toHexCore n n [] with
  | nil => exact absurd h hne
  | cons c cs =>
    rw [h] at hparse
    simpa [List.isEmpty] using hparse

theorem mapToObj_mem {m : List (Nat × RawVal)}
    (hwf : ∀ kv ∈ m, (convRawVal kv.2).isSome) {k : Nat} {v : RawVal} {s : String}
    (hmem : (k, v) ∈ m) (hconv : convRawVal v = some s) :
    (k, s) ∈ mapToObj m := by
  induction m with
  | nil => cases hmem
  | cons kv rest ih =>
    obtain ⟨k', v'⟩ := kv
    have hv' : (convRawVal v').isSome := hwf (k', v') (List.mem_cons_self _ _)
    obtain ⟨s', hs'⟩ := Option.isSome_iff_exists.mp hv'
    rcases List.mem_cons.mp hmem with heq | htail
    · injection heq with h1 h2
      subst h1; subst h2
      simp only [mapToObj, hconv]
      exact List.mem_cons_self _ _
    · simp only [mapToObj, hs']
      exact List.mem_cons_of_mem _ (ih (fun kv h => hwf kv (List.mem_cons_of_mem _ h)) htail)

/- ---------------------------------------------------------------------
Lemmas: the Epoch Boundary Locator.
--------------------------------------------------------------------- -/

theorem epochAt_eq (c : Chain) (h : Nat) :
    epochAt c h = (c.stakingSummaryAt h).map (·.currentEpochIndex) := by
  cases hs : c.stakingSummaryAt h <;> simp [epochAt, readSummaryAt, hs]

theorem bsLoopAux_fuel (c : Chain) (t : Nat) :
    ∀ f₁ f₂ lo hi, hi - lo ≤ f₁ → hi - lo ≤ f₂ →
      bsLoopAux c t f₁ lo hi = bsLoopAux c t f₂ lo hi := by
  intro f₁
  induction f₁ with
  | zero =>
    intro f₂ lo hi h1 h2
    have hnlt : ¬ lo < hi := by omega
    cases f₂ with
    | zero => rfl
    | succ g => simp [bsLoopAux, hnlt]
  | succ f ih =>
    intro f₂ lo hi h1 h2
    by_cases hlt : lo < hi
    · obtain ⟨g, rfl⟩ : ∃ g, f₂ = g + 1 := ⟨f₂ - 1, by omega⟩
      simp only [bsLoopAux, if_pos hlt]
      cases he : epochAt c ((lo + hi) / 2) with
      | none => exact ih g ((lo + hi) / 2 + 1) hi (by omega) (by omega)
      | some e =>
        by_cases ht : t ≤ e
        · simp only [if_pos ht]
          exact ih g lo ((lo + hi) / 2) (by omega) (by omega)
        · simp only [if_neg ht]
          exact ih g ((lo + hi) / 2 + 1) hi (by omega) (by omega)
    · cases f₂ with
      | zero => simp [bsLoopAux, hlt]
      | succ g => simp [bsLoopAux, hlt]

theorem bsLoop_eq (c : Chain) (t lo hi : Nat) :
    bsLoop c t lo hi =
      if lo < hi then
        match epochAt c ((lo + hi) / 2) with
        | none => bsLoop c t ((lo + hi) / 2 + 1) hi
        | some e =>
          if t ≤ e then bsLoop c t lo ((lo + hi) / 2)
          else bsLoop c t ((lo + hi) / 2 + 1) hi
      else lo := by
  by_cases hlt : lo < hi
  · obtain ⟨g, hg⟩ : ∃ g, hi - lo = g + 1 := ⟨hi - lo - 1, by omega⟩
    simp only [bsLoop, hg, bsLoopAux, if_pos hlt]
    cases he : epochAt c ((lo + hi) / 2) with
    | none => exact bsLoopAux_fuel c t g _ ((lo + hi) / 2 + 1) hi (by omega) (by omega)
    | some e =>
      by_cases ht : t ≤ e
      · simp only [if_pos ht]
        exact bsLoopAux_fuel c t g _ lo ((lo + hi) / 2) (by omega) (by omega)
      · simp only [if_neg ht]
        exact bsLoopAux_fuel c t g _ ((lo + hi) / 2 + 1) hi (by omega) (by omega)
  · have : hi - lo = 0 := by omega
    simp [bsLoop, this, bsLoopAux, hlt]

theorem bsLoopAux_lo_le (c : Chain) (t : Nat) :
    ∀ f lo hi, lo ≤ bsLoopAux c t f lo hi := by
  intro f
  induction f with
  | zero => intro lo hi; simp [bsLoopAux]
  | succ f ih =>
    intro lo hi
    by_cases hlt : lo < hi
    · simp only [bsLoopAux, if_pos hlt]
      cases he : epochAt c ((lo + hi) / 2) with
      | none => exact le_trans (by omega) (ih ((lo + hi) / 2 + 1) hi)
      | some e =>
        by_cases ht : t ≤ e
        · simp only [if_pos ht]; exact ih lo ((lo + hi) / 2)
        · simp only [if_neg ht]
          exact le_trans (by omega) (ih ((lo + hi) / 2 + 1) hi)
    · simp [bsLoopAux, hlt]

theorem findEpochStartBlock_pos {c : Chain} {t h : Nat}
    (hok : findEpochStartBlock c t = .ok h) : 1 ≤ h := by
  simp only [findEpochStartBlock] at hok
  split at hok
  · cases hok
  · split at hok
    · cases hok
    · split at hok
      · cases hok
        exact bsLoopAux_lo_le c t _ 1 c.headHeight
      · cases hok

/-- Core invariant of the binary-search loop, under monotonicity: if all
heights in `[1, lo)` read absent or strictly below the target, and `hi`
reads at least the target, then the same holds of the returned
candidate. -/
theorem bsLoop_inv (c : Chain) (t : Nat) (hm : Mono c) :
    ∀ n lo hi, hi - lo ≤ n → lo ≤ hi →
      (∀ h, 1 ≤ h → h < lo →
        epochAt c h = none ∨ ∃ e, epochAt c h = some e ∧ e < t) →
      (∃ e, t ≤ e ∧ epochAt c hi = some e) →
      (∀ h, 1 ≤ h → h < bsLoop c t lo hi →
        epochAt c h = none ∨ ∃ e, epochAt c h = some e ∧ e < t) ∧
      (∃ e, t ≤ e ∧ epochAt c (bsLoop c t lo hi) = some e) := by
  intro n
  induction n with
  | zero =>
    intro lo hi h1 h2 hA hB
    have hlo : lo = hi := by omega
    rw [bsLoop_eq]
    simp only [show ¬ lo < hi by omega, if_false]
    subst hlo
    exact ⟨hA, hB⟩
  | succ n ih =>
    intro lo hi h1 h2 hA hB
    by_cases hlt : lo < hi
    · rw [bsLoop_eq]
      simp only [if_pos hlt]
      cases he : epochAt c ((lo + hi) / 2) with
      | none =>
        have hA' : ∀ h, 1 ≤ h → h < (lo + hi) / 2 + 1 →
            epochAt c h = none ∨ ∃ e, epochAt c h = some e ∧ e < t := by
          intro h hh1 hh2
          by_cases hcase : h < lo
          · exact hA h hh1 hcase
          · left
            cases heh : epochAt c h with
            | none => rfl
            | some eh =>
              obtain ⟨e₂, he₂, _⟩ := hm h ((lo + hi) / 2) (by omega) eh heh
              rw [he] at he₂; cases he₂
        have := ih ((lo + hi) / 2 + 1) hi (by omega) (by omega) hA' hB
        rw [bsLoop_eq]; rw [bsLoop_eq] at this
        exact this
      | some e =>
        by_cases ht : t ≤ e
        · simp only [if_pos ht]
          exact ih lo ((lo + hi) / 2) (by omega) (by omega) hA ⟨e, ht, he⟩
        · simp only [if_neg ht]
          have hA' : ∀ h, 1 ≤ h → h < (lo + hi) / 2 + 1 →
              epochAt c h = none ∨ ∃ e, epochAt c h = some e ∧ e < t := by
            intro h hh1 hh2
            by_cases hcase : h < lo
            · exact hA h hh1 hcase
            · cases heh : epochAt c h with
              | none => exact Or.inl rfl
              | some eh =>
                right
                obtain ⟨e₂, he₂, hle₂⟩ := hm h ((lo + hi) / 2) (by omega) eh heh
                rw [he] at he₂
                cases he₂
                exact ⟨eh, rfl, by omega⟩
          exact ih ((lo + hi) / 2 + 1) hi (by omega) (by omega) hA' hB
    · rw [bsLoop_eq]
      simp only [hlt, if_false]
      have hlo : lo = hi := by omega
      subst hlo
      exact ⟨hA, hB⟩

/-- Success of the locator, under monotonicity, for any target epoch
actually attained at some height: the returned height reads exactly the
target, and its predecessor (when the height is not 1) reads strictly
below the target when it reads at all. -/
theorem findEpochStartBlock_ok_of_attained {c : Chain} {t : Nat} (hm : Mono c)
    (ha : ∃ h, 1 ≤ h ∧ h ≤ c.headHeight ∧ epochAt c h = some t) :
    ∃ r, findEpochStartBlock c t = .ok r ∧ epochAt c r = some t ∧
      (r = 1 ∨ ∀ e, epochAt c (r - 1) = some e → e < t) := by
  obtain ⟨h₀, h₀1, h₀le, h₀t⟩ := ha
  obtain ⟨cur, hcur, htcur⟩ := hm h₀ c.headHeight h₀le t h₀t
  have hinv := bsLoop_inv c t hm (c.headHeight - 1) 1 c.headHeight
    (by omega) (by omega)
    (by intro h hh1 hh2; omega)
    ⟨cur, htcur, hcur⟩
  obtain ⟨hA, e_r, ht_er, her⟩ := hinv
  set r := bsLoop c t 1 c.headHeight with hr
  have hr1 : 1 ≤ r := bsLoopAux_lo_le c t _ 1 c.headHeight
  have hrh₀ : r ≤ h₀ := by
    by_contra hcon
    rcases hA h₀ h₀1 (by omega) with hnone | ⟨e, he, hlt⟩
    · rw [h₀t] at hnone; cases hnone
    · rw [h₀t] at he; cases he; omega
  have her_t : e_r = t := by
    obtain ⟨e₂, he₂, hle₂⟩ := hm r h₀ hrh₀ e_r her
    rw [h₀t] at he₂
    cases he₂
    omega
  have hver : epochAt c r = some t := by rw [← her_t]; exact her
  have htcur' : t ≤ cur := by omega
  refine ⟨r, ?_, hver, ?_⟩
  · simp only [findEpochStartBlock, hcur]
    rw [if_neg (show ¬ cur < t by omega), ← hr, if_pos hver]
  · by_cases hcase : r = 1
    · exact Or.inl hcase
    · right
      intro e he
      rcases hA (r - 1) (by omega) (by omega) with hnone | ⟨e', he', hlt'⟩
      · rw [he] at hnone; cases hnone
      · rw [he] at he'; cases he'; omega

/- ---------------------------------------------------------------------
Lemmas: the extraction pipeline.
--------------------------------------------------------------------- -/

/-- Case analysis of one loop iteration that did not abort: either the
rows are unchanged (unconfirmed end, with at most a defensive flush), or
exactly the confirmed epoch's record was appended and the whole sequence
written. -/
theorem runStep_ok_cases {did : Nat} {c : Chain} {ep : Nat}
    {st st' : PipelineState} (h : runStep did c ep st = .ok st') :
    (st'.rows = st.rows ∧
      (st' = st ∨
        (st' = { rows := st.rows, lastWrittenLength := st.rows.length, store := st.rows } ∧
          st.lastWrittenLength < st.rows.length))) ∨
    (∃ s nxt, findEpochStartBlock c ep = .ok s ∧
      findEpochStartBlock c (ep + 1) = .ok nxt ∧
      st' = { rows := st.rows ++ [assembleRecord did c ep s (nxt - 1)],
              lastWrittenLength := (st.rows ++ [assembleRecord did c ep s (nxt - 1)]).length,
              store := st.rows ++ [assembleRecord did c ep s (nxt - 1)] }) := by
  unfold runStep at h
  cases hs : findEpochStartBlock c ep with
  | error e => rw [hs] at h; cases h
  | ok s =>
    rw [hs] at h
    cases hn : findEpochStartBlock c (ep + 1) with
    | ok nxt =>
      rw [hn] at h
      cases h
      exact Or.inr ⟨s, nxt, rfl, rfl, rfl⟩
    | error e =>
      rw [hn] at h
      by_cases hw : st.lastWrittenLength < st.rows.length
      · rw [if_pos hw] at h
        cases h
        exact Or.inl ⟨rfl, Or.inr ⟨rfl, hw⟩⟩
      · rw [if_neg hw] at h
        cases h
        exact Or.inl ⟨rfl, Or.inl rfl⟩

theorem runStep_err {did : Nat} {c : Chain} {ep : Nat} {st : PipelineState}
    {e : LocErr} (h : runStep did c ep st = .error e) :
    findEpochStartBlock c ep = .error e := by
  unfold runStep at h
  cases hs : findEpochStartBlock c ep with
  | error e' =>
    rw [hs] at h
    cases h
    rfl
  | ok s =>
    rw [hs] at h
    cases hn : findEpochStartBlock c (ep + 1) with
    | ok nxt => rw [hn] at h; cases h
    | error e' =>
      rw [hn] at h
      by_cases hw : st.lastWrittenLength < st.rows.length
      · rw [if_pos hw] at h; cases h
      · rw [if_neg hw] at h; cases h

/-- Every row in the final state is either inherited from the initial
state or has its start and its end confirmed by successful locator calls
(the end through its successor epoch's start). -/
theorem runEpochs_rows_confirmed (did : Nat) (c : Chain) :
    ∀ n ep st, ∀ r ∈ (runEpochs did c n ep st).1.rows,
      r ∈ st.rows ∨
        (findEpochStartBlock c r.epoch = .ok r.startBlock ∧
          findEpochStartBlock c (r.epoch + 1) = .ok (r.endBlock + 1)) := by
  intro n
  induction n with
  | zero => intro ep st r hr; exact Or.inl hr
  | succ n ih =>
    intro ep st r hr
    simp only [runEpochs] at hr
    cases hstep : runStep did c ep st with
    | error e => rw [hstep] at hr; exact Or.inl hr
    | ok st' =>
      rw [hstep] at hr
      rcases ih (ep + 1) st' r hr with hmem | hconf
      · rcases runStep_ok_cases hstep with ⟨hrows, _⟩ | ⟨s, nxt, hs, hn, hst'⟩
        · rw [hrows] at hmem; exact Or.inl hmem
        · rw [hst'] at hmem
          simp only [List.mem_append, List.mem_singleton] at hmem
          rcases hmem with hmem | hrec
          · exact Or.inl hmem
          · right
            subst hrec
            have h1 : 1 ≤ nxt := findEpochStartBlock_pos hn
            simp only [assembleRecord]
            constructor
            · exact hs
            · rw [Nat.sub_add_cancel h1]
              exact hn
      · exact Or.inr hconf

/-- The loop preserves strict ascent of the `epoch` column: if the rows
are strictly ascending and all below the next epoch to process, they stay
strictly ascending, and stay below the next epoch to process. -/
theorem runEpochs_pairwise (did : Nat) (c : Chain) :
    ∀ n ep st,
      List.Pairwise (fun a b : EpochRecord => a.epoch < b.epoch) st.rows →
      (∀ r ∈ st.rows, r.epoch < ep) →
      List.Pairwise (fun a b : EpochRecord => a.epoch < b.epoch)
        (runEpochs did c n ep st).1.rows ∧
      (∀ r ∈ (runEpochs did c n ep st).1.rows, r.epoch < ep + n) := by
  intro n
  induction n with
  | zero =>
    intro ep st hp hb
    exact ⟨hp, fun r hr => lt_of_lt_of_le (hb r hr) (by omega)⟩
  | succ n ih =>
    intro ep st hp hb
    simp only [runEpochs]
    cases hstep : runStep did c ep st with
    | error e =>
      exact ⟨hp, fun r hr => lt_of_lt_of_le (hb r hr) (by omega)⟩
    | ok st' =>
      have hnext : List.Pairwise (fun a b : EpochRecord => a.epoch < b.epoch) st'.rows ∧
          ∀ r ∈ st'.rows, r.epoch < ep + 1 := by
        rcases runStep_ok_cases hstep with ⟨hrows, _⟩ | ⟨s, nxt, hs, hn, hst'⟩
        · rw [hrows]
          exact ⟨hp, fun r hr => lt_of_lt_of_le (hb r hr) (by omega)⟩
        · rw [hst']
          constructor
          · simp only [List.pairwise_append, List.pairwise_singleton, List.mem_singleton]
            refine ⟨hp, trivial, ?_⟩
            intro a ha b hb'
            subst hb'
            simpa [assembleRecord] using hb a ha
          · intro r hr
            simp only [List.mem_append, List.mem_singleton] at hr
            rcases hr with hr | hr
            · exact lt_of_lt_of_le (hb r hr) (by omega)
            · subst hr; simp [assembleRecord]
      have := ih (ep + 1) st' hnext.1 hnext.2
      exact ⟨this.1, fun r hr => lt_of_lt_of_le (this.2 r hr) (by omega)⟩

/-- The rows of the final state of a full run are those of the loop's
final state (the pre-loop head check and post-loop defensive flush never
change `rows`). -/
theorem mainRun_rows (did : Nat) (c : Chain) (s e : Nat)
    (existing store0 : List EpochRecord) :
    (mainRun did c s e existing store0).1.rows = existing ∨
    (mainRun did c s e existing store0).1.rows =
      (runEpochs did c (e + 1 - s) s
        { rows := existing, lastWrittenLength := existing.length,
          store := store0 }).1.rows := by
  unfold mainRun
  cases hh : epochAt c c.headHeight with
  | none => exact Or.inl rfl
  | some cur =>
    cases hr : (runEpochs did c (e + 1 - s) s
        { rows := existing, lastWrittenLength := existing.length, store := store0 }).2 with
    | some err => simp [hr]
    | none =>
      simp only [hr]
      split <;> simp

/- ---------------------------------------------------------------------
Lemmas: the concrete chains and their monotonicity.
--------------------------------------------------------------------- -/

theorem chainOneOpen_epochAt (h : Nat) :
    epochAt chainOneOpen h = if h = 0 then none else if h ≤ 2 then some 0 else some 1 := by
  simp only [epochAt_eq, chainOneOpen]
  split_ifs <;> rfl

theorem chainOneOpen_mono : Mono chainOneOpen := by
  intro h₁ h₂ hle e₁ he₁
  simp only [chainOneOpen_epochAt] at he₁ ⊢
  split_ifs at he₁ with ha hb
  · cases he₁
    split_ifs with hc hd
    · exact (by omega : False).elim
    · exact ⟨0, rfl, le_rfl⟩
    · exact ⟨1, rfl, by omega⟩
  · cases he₁
    split_ifs with hc hd
    · exact (by omega : False).elim
    · exact (by omega : False).elim
    · exact ⟨1, rfl, le_rfl⟩

theorem chainSkipA_epochAt (h : Nat) :
    epochAt chainSkipA h = if h = 0 then none else if h ≤ 2 then some 0 else some 3 := by
  simp only [epochAt_eq, chainSkipA]
  split_ifs <;> rfl

theorem chainSkipA_mono : Mono chainSkipA := by
  intro h₁ h₂ hle e₁ he₁
  simp only [chainSkipA_epochAt] at he₁ ⊢
  split_ifs at he₁ with ha hb
  · cases he₁
    split_ifs with hc hd
    · exact (by omega : False).elim
    · exact ⟨0, rfl, le_rfl⟩
    · exact ⟨3, rfl, by omega⟩
  · cases he₁
    split_ifs with hc hd
    · exact (by omega : False).elim
    · exact (by omega : False).elim
    · exact ⟨3, rfl, le_rfl⟩

theorem chainSkipB_epochAt (h : Nat) :
    epochAt chainSkipB h = if h = 0 then none else if h = 1 then some 0 else some 2 := by
  simp only [epochAt_eq, chainSkipB]
  split_ifs <;> rfl

theorem chainSkipB_mono : Mono chainSkipB := by
  intro h₁ h₂ hle e₁ he₁
  simp only [chainSkipB_epochAt] at he₁ ⊢
  split_ifs at he₁ with ha hb
  · cases he₁
    split_ifs with hc hd
    · exact (by omega : False).elim
    · exact ⟨0, rfl, le_rfl⟩
    · exact ⟨2, rfl, by omega⟩
  · cases he₁
    split_ifs with hc hd
    · exact (by omega : False).elim
    · exact (by omega : False).elim
    · exact ⟨2, rfl, le_rfl⟩

/- ---------------------------------------------------------------------
Claim theorems.
--------------------------------------------------------------------- -/

/-- C8: every `totalStake`, operator-stake and reward value is represented
as the decimal string of an arbitrary-precision unsigned integer —
hex-encoded inputs are converted to decimal through the exact `BigInt`
embedding, never through floating point — so serializing a value and
re-parsing it as an arbitrary-precision integer yields exactly the
original value, including values exceeding `2 ^ 53`. -/
theorem c8_large_integer_roundtrip :
    (∀ n : Nat, decStrToNat (natToDecStr n) = some n) ∧
    (∀ n : Nat, hexStrToNat (natToHexStr n) = some n) ∧
    (∀ (m : List (Nat × RawVal)) (k n : Nat),
      (∀ kv ∈ m, (convRawVal kv.2).isSome) →
      ((k, RawVal.big n) ∈ m → (k, natToDecStr n) ∈ mapToObj m) ∧
      ((k, RawVal.hexStr (natToHexStr n)) ∈ m → (k, natToDecStr n) ∈ mapToObj m)) ∧
    (2 ^ 53 < 2 ^ 64 ∧ decStrToNat (natToDecStr (2 ^ 64)) = some (2 ^ 64)) := by
  refine ⟨decStrToNat_natToDecStr, hexStrToNat_natToHexStr, ?_,
    by norm_num, decStrToNat_natToDecStr _⟩
  intro m k n hwf
  constructor
  · intro hmem
    exact mapToObj_mem hwf hmem rfl
  · intro hmem
    refine mapToObj_mem hwf hmem ?_
    simp [convRawVal, hexStrToNat_natToHexStr]

theorem c8_large_integer_roundtrip_witness :
    decStrToNat (natToDecStr 9007199254740993) = some 9007199254740993 ∧
    (0, natToDecStr 200) ∈ mapToObj [(1, RawVal.big 3), (0, RawVal.hexStr (natToHexStr 200))] := by
  constructor
  · exact c8_large_integer_roundtrip.1 9007199254740993
  · exact (c8_large_integer_roundtrip.2.2.1
      [(1, RawVal.big 3), (0, RawVal.hexStr (natToHexStr 200))] 0 200 (by decide)).2 (by decide)

/-- C10: termination of the boundary search: for every oracle and bounds,
each iteration with `lo < hi` strictly shrinks the interval `hi - lo`, so
`hi - lo` iterations of fuel always suffice: running the loop body with
any fuel at least `hi - lo` yields the loop's result. -/
theorem c10_search_terminates :
    ∀ (c : Chain) (t lo hi f : Nat), hi - lo ≤ f →
      bsLoopAux c t f lo hi = bsLoop c t lo hi := by
  intro c t lo hi f hle
  exact bsLoopAux_fuel c t f (hi - lo) lo hi hle le_rfl

theorem c10_search_terminates_witness :
    (3 - 1 ≤ 7) ∧ bsLoopAux chainTwoDone 1 7 1 3 = bsLoop chainTwoDone 1 1 3 :=
  ⟨by omega, c10_search_terminates chainTwoDone 1 1 3 7 (by omega)⟩

/-- C4: after the binary-search loop terminates, the locator checks that
the epoch observed at the candidate height equals the target exactly, and
raises `BoundarySearchInconsistent` instead of returning when the check
fails; consequently it never returns a height whose observed epoch
differs from the target. -/
theorem c4_mandatory_verification (c : Chain) (t : Nat) :
    (∀ h, findEpochStartBlock c t = .ok h → epochAt c h = some t) ∧
    (∀ cur, epochAt c c.headHeight = some cur → ¬ cur < t →
      epochAt c (bsLoop c t 1 c.headHeight) ≠ some t →
      findEpochStartBlock c t = .error .boundarySearchInconsistent) := by
  constructor
  · intro h hok
    simp only [findEpochStartBlock] at hok
    split at hok
    · cases hok
    · split at hok
      · cases hok
      · split at hok
        · rename_i hv
          cases hok
          exact hv
        · cases hok
  · intro cur hcur hnlt hneq
    simp only [findEpochStartBlock, hcur]
    rw [if_neg hnlt, if_neg hneq]

theorem c4_mandatory_verification_witness :
    epochAt chainOneOpen 1 = some 0 ∧
    findEpochStartBlock chainSkipB 1 = .error .boundarySearchInconsistent := by
  constructor
  · exact (c4_mandatory_verification chainOneOpen 0).1 1 (by rfl)
  · exact (c4_mandatory_verification chainSkipB 1).2 2 (by rfl) (by omega) (by decide)

/-- C2 (recorded against the claim as a code bug): on `chainOneOpen`
(epoch 0 complete, epoch 1 open) with requested range `[0, 2]`, the run
persists the records accumulated so far (epoch 0 is in the store) but
does not terminate normally: after `EpochNotYetReached` at epoch 1 the
loop continues, and epoch 2's own unguarded locator call raises the
uncaught error that aborts the run. -/
theorem c2_continue_aborts_run :
    (mainRun 0 chainOneOpen 0 2 [] []).2 = some LocErr.epochNotYetReached ∧
    (mainRun 0 chainOneOpen 0 2 [] []).1.store.map (·.epoch) = [0] ∧
    findEpochStartBlock chainOneOpen 2 = .error .epochNotYetReached :=
  ⟨rfl, rfl, rfl⟩

/-- C1 (counterexample to the claim as stated): `chainSkipA` is monotone
with head epoch 3, and `1` lies in `[0, 3]`, yet `findEpochStartBlock`
raises `BoundarySearchInconsistent` instead of returning a height: the
monotone oracle skips epoch 1, which is observed at no height. -/
theorem c1_boundary_counterexample :
    Mono chainSkipA ∧ epochAt chainSkipA chainSkipA.headHeight = some 3 ∧ (1 : Nat) ≤ 3 ∧
    findEpochStartBlock chainSkipA 1 = .error .boundarySearchInconsistent :=
  ⟨chainSkipA_mono, rfl, by omega, rfl⟩

/-- C1 (amended): under a non-decreasing epoch oracle, for every target
epoch observed at some height in `[1, headHeight]` (rather than every
target in `[0, headEpoch]`), the locator returns a height reading exactly
the target, and either that height is 1 or its predecessor reads strictly
below the target whenever it reads at all. -/
theorem c1_boundary_correctness (c : Chain) (t : Nat) (hm : Mono c)
    (ha : ∃ h, 1 ≤ h ∧ h ≤ c.headHeight ∧ epochAt c h = some t) :
    ∃ r, findEpochStartBlock c t = .ok r ∧ epochAt c r = some t ∧
      (r = 1 ∨ ∀ e, epochAt c (r - 1) = some e → e < t) :=
  findEpochStartBlock_ok_of_attained hm ha

theorem c1_boundary_correctness_witness :
    ∃ r, findEpochStartBlock chainOneOpen 1 = .ok r ∧ epochAt chainOneOpen r = some 1 ∧
      (r = 1 ∨ ∀ e, epochAt chainOneOpen (r - 1) = some e → e < 1) :=
  c1_boundary_correctness chainOneOpen 1 chainOneOpen_mono ⟨3, by omega, by decide, rfl⟩

/-- C6 (counterexample to the claim as stated): `chainSkipB` is monotone
with head epoch 2 and target `1 ≤ 2`, yet the locator does not succeed:
it raises `BoundarySearchInconsistent`, because no height reads epoch 1. -/
theorem c6_locate_counterexample :
    Mono chainSkipB ∧ epochAt chainSkipB chainSkipB.headHeight = some 2 ∧ (1 : Nat) ≤ 2 ∧
    findEpochStartBlock chainSkipB 1 = .error .boundarySearchInconsistent :=
  ⟨chainSkipB_mono, rfl, by omega, rfl⟩

/-- C6 (amended): the locator fails with `EpochNotYetReached` exactly when
the head reads an epoch strictly below the target, fails with
`EpochIndexUnavailable` exactly when the head reads no summary at all,
and succeeds under a monotone oracle whenever the target is attained at
some height in `[1, headHeight]` (amended from: whenever the target is at
most the head epoch). -/
theorem c6_locate_failure_conditions :
    (∀ (c : Chain) (t : Nat), findEpochStartBlock c t = .error .epochNotYetReached ↔
      ∃ cur, epochAt c c.headHeight = some cur ∧ cur < t) ∧
    (∀ (c : Chain) (t : Nat), findEpochStartBlock c t = .error .epochIndexUnavailable ↔
      epochAt c c.headHeight = none) ∧
    (∀ (c : Chain) (t : Nat), Mono c →
      (∃ h, 1 ≤ h ∧ h ≤ c.headHeight ∧ epochAt c h = some t) →
      ∃ r, findEpochStartBlock c t = .ok r) := by
  refine ⟨?_, ?_, ?_⟩
  · intro c t
    constructor
    · intro h
      simp only [findEpochStartBlock] at h
      split at h
      · cases h
      · rename_i cur hcur
        split at h
        · rename_i hlt
          exact ⟨cur, hcur, hlt⟩
        · split at h
          · cases h
          · simp at h
    · rintro ⟨cur, hcur, hlt⟩
      simp only [findEpochStartBlock, hcur]
      rw [if_pos hlt]
  · intro c t
    constructor
    · intro h
      simp only [findEpochStartBlock] at h
      split at h
      · rename_i hnone
        exact hnone
      · split at h
        · simp at h
        · split at h
          · cases h
          · simp at h
    · intro hnone
      simp only [findEpochStartBlock, hnone]
  · intro c t hm ha
    obtain ⟨r, hr, _, _⟩ := findEpochStartBlock_ok_of_attained hm ha
    exact ⟨r, hr⟩

theorem c6_locate_failure_conditions_witness :
    (∃ cur, epochAt chainOneOpen chainOneOpen.headHeight = some cur ∧ cur < 3) ∧
    findEpochStartBlock chainNoSummary 0 = .error .epochIndexUnavailable ∧
    (∃ r, findEpochStartBlock chainOneOpen 1 = .ok r) :=
  ⟨(c6_locate_failure_conditions.1 chainOneOpen 3).mp rfl,
    (c6_locate_failure_conditions.2.1 chainNoSummary 0).mpr rfl,
    c6_locate_failure_conditions.2.2 chainOneOpen 1 chainOneOpen_mono
      ⟨3, by omega, by decide, rfl⟩⟩

/-- C3: if locating the start of epoch `ep + 1` fails, the iteration for
epoch `ep` appends nothing; and every row ever present in the loop's
final state is either inherited from the initial state or had both its
start and (through the successor epoch's start) its end height confirmed
by successful locator calls. -/
theorem c3_no_premature_completion :
    (∀ (did : Nat) (c : Chain) (ep : Nat) (st st' : PipelineState) (e : LocErr),
      findEpochStartBlock c (ep + 1) = .error e →
      runStep did c ep st = .ok st' → st'.rows = st.rows) ∧
    (∀ (did : Nat) (c : Chain) (n ep : Nat) (st : PipelineState),
      ∀ r ∈ (runEpochs did c n ep st).1.rows,
        r ∈ st.rows ∨
          (findEpochStartBlock c r.epoch = .ok r.startBlock ∧
            findEpochStartBlock c (r.epoch + 1) = .ok (r.endBlock + 1))) := by
  constructor
  · intro did c ep st st' e herr hok
    rcases runStep_ok_cases hok with ⟨hrows, _⟩ | ⟨s, nxt, hs, hn, _⟩
    · exact hrows
    · rw [herr] at hn; cases hn
  · exact runEpochs_rows_confirmed

theorem c3_no_premature_completion_witness :
    (⟨[], 0, []⟩ : PipelineState).rows = (⟨[], 0, []⟩ : PipelineState).rows ∧
    ((assembleRecord 0 chainOneOpen 0 1 2) ∈ (⟨[], 0, []⟩ : PipelineState).rows ∨
      (findEpochStartBlock chainOneOpen (assembleRecord 0 chainOneOpen 0 1 2).epoch =
          .ok (assembleRecord 0 chainOneOpen 0 1 2).startBlock ∧
        findEpochStartBlock chainOneOpen ((assembleRecord 0 chainOneOpen 0 1 2).epoch + 1) =
          .ok ((assembleRecord 0 chainOneOpen 0 1 2).endBlock + 1))) :=
  ⟨c3_no_premature_completion.1 0 chainOneOpen 1 ⟨[], 0, []⟩ ⟨[], 0, []⟩
      .epochNotYetReached rfl rfl,
    c3_no_premature_completion.2 0 chainOneOpen 3 0 ⟨[], 0, []⟩
      (assembleRecord 0 chainOneOpen 0 1 2) (by decide)⟩

/-- C5 (counterexample to the claim as stated): on `chainTwoDone`, a first
run over range `[0, 0]` outputs one record for epoch 0; a second run over
the same (overlapping) range, with the first run's full output as its
existing records, reprocesses epoch 0 and appends it again: the final
sequence has epochs `[0, 0]`, which contains a duplicate. -/
theorem c5_resume_counterexample :
    ((mainRun 0 chainTwoDone 0 0 [] []).1.rows.map (·.epoch) = [0]) ∧
    ((mainRun 0 chainTwoDone 0 0
        (mainRun 0 chainTwoDone 0 0 [] []).1.rows
        (mainRun 0 chainTwoDone 0 0 [] []).1.rows).1.rows.map (·.epoch) = [0, 0]) ∧
    ¬ ((mainRun 0 chainTwoDone 0 0
        (mainRun 0 chainTwoDone 0 0 [] []).1.rows
        (mainRun 0 chainTwoDone 0 0 [] []).1.rows).1.rows.map (·.epoch)).Nodup :=
  ⟨rfl, rfl, by decide⟩

/-- C5 (amended): running the pipeline twice, where the second run's
existing records equal the first run's full output and the second run's
`startEpoch` lies strictly past every epoch of that output (adjacent,
non-overlapping resume, as §4.6 of the spec requires of the caller),
yields a final persisted sequence whose `epoch` column is strictly
ascending and duplicate-free. -/
theorem c5_resume_adjacent (did₁ did₂ : Nat) (c₁ c₂ : Chain) (s₁ e₁ s₂ e₂ : Nat)
    (store0 : List EpochRecord)
    (hgap : ∀ r ∈ (mainRun did₁ c₁ s₁ e₁ [] store0).1.rows, r.epoch < s₂) :
    List.Pairwise (fun a b : Nat => a < b)
      ((mainRun did₂ c₂ s₂ e₂ (mainRun did₁ c₁ s₁ e₁ [] store0).1.rows
        (mainRun did₁ c₁ s₁ e₁ [] store0).1.rows).1.rows.map (·.epoch)) ∧
    ((mainRun did₂ c₂ s₂ e₂ (mainRun did₁ c₁ s₁ e₁ [] store0).1.rows
        (mainRun did₁ c₁ s₁ e₁ [] store0).1.rows).1.rows.map (·.epoch)).Nodup := by
  have hp1 : List.Pairwise (fun a b : EpochRecord => a.epoch < b.epoch)
      (mainRun did₁ c₁ s₁ e₁ [] store0).1.rows := by
    rcases mainRun_rows did₁ c₁ s₁ e₁ [] store0 with h | h
    · rw [h]; exact List.Pairwise.nil
    · rw [h]
      exact (runEpochs_pairwise did₁ c₁ (e₁ + 1 - s₁) s₁
        { rows := [], lastWrittenLength := List.length [], store := store0 }
        List.Pairwise.nil (by intro r hr; cases hr)).1
  have hp2 : List.Pairwise (fun a b : EpochRecord => a.epoch < b.epoch)
      (mainRun did₂ c₂ s₂ e₂ (mainRun did₁ c₁ s₁ e₁ [] store0).1.rows
        (mainRun did₁ c₁ s₁ e₁ [] store0).1.rows).1.rows := by
    rcases mainRun_rows did₂ c₂ s₂ e₂ (mainRun did₁ c₁ s₁ e₁ [] store0).1.rows
        (mainRun did₁ c₁ s₁ e₁ [] store0).1.rows with h | h
    · rw [h]; exact hp1
    · rw [h]
      exact (runEpochs_pairwise did₂ c₂ (e₂ + 1 - s₂) s₂
        { rows := (mainRun did₁ c₁ s₁ e₁ [] store0).1.rows,
          lastWrittenLength := (mainRun did₁ c₁ s₁ e₁ [] store0).1.rows.length,
          store := (mainRun did₁ c₁ s₁ e₁ [] store0).1.rows }
        hp1 hgap).1
  have hmap : List.Pairwise (fun a b : Nat => a < b)
      ((mainRun did₂ c₂ s₂ e₂ (mainRun did₁ c₁ s₁ e₁ [] store0).1.rows
        (mainRun did₁ c₁ s₁ e₁ [] store0).1.rows).1.rows.map (·.epoch)) :=
    List.pairwise_map.mpr hp2
  exact ⟨hmap, hmap.imp Nat.ne_of_lt⟩

theorem c5_resume_adjacent_witness :
    List.Pairwise (fun a b : Nat => a < b)
      ((mainRun 0 chainTwoDone 1 1 (mainRun 0 chainTwoDone 0 0 [] []).1.rows
        (mainRun 0 chainTwoDone 0 0 [] []).1.rows).1.rows.map (·.epoch)) ∧
    ((mainRun 0 chainTwoDone 1 1 (mainRun 0 chainTwoDone 0 0 [] []).1.rows
        (mainRun 0 chainTwoDone 0 0 [] []).1.rows).1.rows.map (·.epoch)).Nodup :=
  c5_resume_adjacent 0 0 chainTwoDone chainTwoDone 0 0 1 1 [] (by decide)

/-- C7: an iteration that did not abort, started with the length
watermark equal to the accumulated rows (as every reachable state is),
re-establishes that watermark and either leaves both the rows and the
store untouched, or appends exactly the completed epoch's record and
immediately writes the entire accumulated sequence to the store.  Hence
between iterations the store holds every epoch completed so far in the
run. -/
theorem c7_incremental_durability (did : Nat) (c : Chain) (ep : Nat)
    (st st' : PipelineState) (hok : runStep did c ep st = .ok st')
    (hw : st.lastWrittenLength = st.rows.length) :
    st'.lastWrittenLength = st'.rows.length ∧
    ((st'.rows = st.rows ∧ st'.store = st.store) ∨
      (∃ rec, st'.rows = st.rows ++ [rec] ∧ rec.epoch = ep ∧ st'.store = st'.rows)) := by
  rcases runStep_ok_cases hok with ⟨hrows, hcase⟩ | ⟨s, nxt, hs, hn, hst'⟩
  · rcases hcase with rfl | ⟨_, hlt⟩
    · exact ⟨hw, Or.inl ⟨rfl, rfl⟩⟩
    · exact (by omega : False).elim
  · subst hst'
    exact ⟨rfl, Or.inr ⟨assembleRecord did c ep s (nxt - 1), rfl, rfl, rfl⟩⟩

theorem c7_incremental_durability_witness :
    (⟨[assembleRecord 0 chainTwoDone 0 1 1], 1,
        [assembleRecord 0 chainTwoDone 0 1 1]⟩ : PipelineState).lastWrittenLength =
      (⟨[assembleRecord 0 chainTwoDone 0 1 1], 1,
        [assembleRecord 0 chainTwoDone 0 1 1]⟩ : PipelineState).rows.length ∧
    (((⟨[assembleRecord 0 chainTwoDone 0 1 1], 1,
          [assembleRecord 0 chainTwoDone 0 1 1]⟩ : PipelineState).rows =
        (⟨[], 0, []⟩ : PipelineState).rows ∧
      (⟨[assembleRecord 0 chainTwoDone 0 1 1], 1,
          [assembleRecord 0 chainTwoDone 0 1 1]⟩ : PipelineState).store =
        (⟨[], 0, []⟩ : PipelineState).store) ∨
      (∃ rec, (⟨[assembleRecord 0 chainTwoDone 0 1 1], 1,
          [assembleRecord 0 chainTwoDone 0 1 1]⟩ : PipelineState).rows =
        (⟨[], 0, []⟩ : PipelineState).rows ++ [rec] ∧ rec.epoch = 0 ∧
        (⟨[assembleRecord 0 chainTwoDone 0 1 1], 1,
          [assembleRecord 0 chainTwoDone 0 1 1]⟩ : PipelineState).store =
        (⟨[assembleRecord 0 chainTwoDone 0 1 1], 1,
          [assembleRecord 0 chainTwoDone 0 1 1]⟩ : PipelineState).rows)) :=
  c7_incremental_durability 0 chainTwoDone 0 ⟨[], 0, []⟩
    ⟨[assembleRecord 0 chainTwoDone 0 1 1], 1, [assembleRecord 0 chainTwoDone 0 1 1]⟩
    rfl rfl

/-- C9: for an epoch whose start and end heights are both confirmed by
the locator, the iteration always appends the assembled record and writes
the whole sequence, even when the snapshot read at the start height or at
the end height returns Absent; the fields sourced from an absent read are
left `none`, and the pipeline does not abort. -/
theorem c9_absent_snapshot_tolerated (did : Nat) (c : Chain) (ep : Nat)
    (st : PipelineState) (s t : Nat)
    (hs : findEpochStartBlock c ep = .ok s)
    (hn : findEpochStartBlock c (ep + 1) = .ok t) :
    ∃ rec, runStep did c ep st =
        .ok { rows := st.rows ++ [rec],
              lastWrittenLength := (st.rows ++ [rec]).length,
              store := st.rows ++ [rec] } ∧
      rec.epoch = ep ∧ rec.startBlock = s ∧ rec.endBlock = t - 1 ∧
      (readSummaryAt c s = none →
        rec.startHash = none ∧ rec.totalStake = none ∧ rec.operatorStakes = none) ∧
      (readSummaryAt c (t - 1) = none → rec.endHash = none ∧ rec.rewards = none) := by
  refine ⟨assembleRecord did c ep s (t - 1), ?_, rfl, rfl, rfl, ?_, ?_⟩
  · simp only [runStep, hs, hn]
  · intro habs
    simp [assembleRecord, habs]
  · intro habs
    simp [assembleRecord, habs]

theorem c9_absent_snapshot_tolerated_witness :
    ∃ rec, runStep 7 chainAbsEnd 0 (⟨[], 0, []⟩ : PipelineState) =
        .ok { rows := ([] : List EpochRecord) ++ [rec],
              lastWrittenLength := (([] : List EpochRecord) ++ [rec]).length,
              store := ([] : List EpochRecord) ++ [rec] } ∧
      rec.epoch = 0 ∧ rec.startBlock = 1 ∧ rec.endBlock = 4 - 1 ∧
      (readSummaryAt chainAbsEnd 1 = none →
        rec.startHash = none ∧ rec.totalStake = none ∧ rec.operatorStakes = none) ∧
      (readSummaryAt chainAbsEnd (4 - 1) = none → rec.endHash = none ∧ rec.rewards = none) :=
  c9_absent_snapshot_tolerated 7 chainAbsEnd 0 ⟨[], 0, []⟩ 1 4 rfl rfl
